import Mathlib

/-
Verification of the grid/automaton engine of a Conway's Game of Life
implementation (src/cell.c).

The embedding mirrors the C source:
* a body stores its cells as a flat list of liveness flags; the cell at
  logical position (x, y) is read and written at linear index
  x * cols + y, exactly as in the source (this indexing aliases distinct
  positions whenever the grid is not square, which is observable below);
* compute_generation is the double loop of the source: for each position
  it seeds the neighbor accumulator with -1 when the centre cell is
  alive, adds the liveness of every in-bounds cell of the 3x3 block,
  applies the B3/S23 rule, writes the result into the destination body
  and accumulates the written value into the population;
* the three seeding strategies and the export coordinate list are
  translated from random_mode, pattern_mode, the mouse handler of
  drawing_mode, and export_body.
Out-of-range list reads return the default false; all theorems below are
stated in regimes where the corresponding C accesses are in bounds.
-/

namespace GoL

/-- A body of cells (body_t): fixed dimensions plus the flat cell store.
The cell at position (x, y) lives at linear index x * cols + y. -/
structure Body where
  rows : Nat
  cols : Nat
  cells : List Bool
deriving DecidableEq, Repr

/-- Implicit C conversion of a liveness flag to an integer. -/
def b2i (v : Bool) : Int := if v then 1 else 0

/-- Liveness of the cell addressed by (x, y), read at linear index
x * cols + y as in the source. -/
def cellAt (b : Body) (x y : Nat) : Bool := b.cells.getD (x * b.cols + y) false

/-- The cell store has exactly rows * cols entries, as allocated by body_init. -/
def WF (b : Body) : Prop := b.cells.length = b.rows * b.cols

/-- A freshly created body: every cell dead (body_init). -/
def deadBody (rows cols : Nat) : Body := ⟨rows, cols, List.replicate (rows * cols) false⟩

/-- A body with every cell alive. -/
def allAlive (rows cols : Nat) : Body := ⟨rows, cols, List.replicate (rows * cols) true⟩

/-- Offsets scanned by the neighbor loops of compute_generation. -/
def offs : List Int := [-1, 0, 1]

/-- One term of the neighbor accumulation: 0 when (x+a, y+b) fails the
bounds test of compute_generation, otherwise the liveness of the cell
read at linear index (x+a) * cols + (y+b). -/
def nbTerm (body_old : Body) (x y : Nat) (a b : Int) : Int :=
  if (x : Int) + a < 0 ∨ (x : Int) + a > (body_old.cols : Int) - 1 ∨
     (y : Int) + b < 0 ∨ (y : Int) + b > (body_old.rows : Int) - 1 then 0
  else b2i (cellAt body_old ((x : Int) + a).toNat ((y : Int) + b).toNat)

/-- The neighbor accumulator of compute_generation: initialised to -1
when the centre cell is alive (0 otherwise), then every in-bounds cell
of the full 3x3 block, centre included, is added. -/
def neighbors (body_old : Body) (x y : Nat) : Int :=
  (if cellAt body_old x y then -1 else 0) +
    (offs.map (fun a => (offs.map (fun b => nbTerm body_old x y a b)).sum)).sum

/-- The eight surrounding offsets, centre excluded, in the scan order of
the source loops. -/
def nbrOffsets : List (Int × Int) :=
  [(-1, -1), (-1, 0), (-1, 1), (0, -1), (0, 1), (1, -1), (1, 0), (1, 1)]

/-- Direct neighbor count as the specification words it: the number of
alive cells of the body among the eight surrounding positions, positions
outside the grid excluded. -/
def specNeighborCount (body_old : Body) (x y : Nat) : Int :=
  (nbrOffsets.map (fun q =>
    if 0 ≤ (x : Int) + q.1 ∧ (x : Int) + q.1 ≤ (body_old.cols : Int) - 1 ∧
       0 ≤ (y : Int) + q.2 ∧ (y : Int) + q.2 ≤ (body_old.rows : Int) - 1 ∧
       cellAt body_old ((x : Int) + q.1).toNat ((y : Int) + q.2).toNat = true
    then (1 : Int) else 0)).sum

/-- The transition rule applied by compute_generation at one position. -/
def nextCell (body_old : Body) (x y : Nat) : Bool :=
  if cellAt body_old x y = true ∧
      (neighbors body_old x y < 2 ∨ neighbors body_old x y > 3) then false
  else if cellAt body_old x y = false ∧ neighbors body_old x y = 3 then true
  else cellAt body_old x y

/-- The transition rule as the claim words it, with the direct neighbor
count. -/
def claimRule (body_old : Body) (x y : Nat) : Bool :=
  if cellAt body_old x y = true ∧
      (specNeighborCount body_old x y < 2 ∨ specNeighborCount body_old x y > 3) then false
  else if cellAt body_old x y = false ∧ specNeighborCount body_old x y = 3 then true
  else cellAt body_old x y

/-- All positions in the iteration order of the source loops: x outer
from 0 to cols-1, y inner from 0 to rows-1. -/
def positions (cols rows : Nat) : List (Nat × Nat) :=
  (List.range cols).flatMap (fun x => (List.range rows).map (fun y => (x, y)))

/-- One store-and-count step: write the computed flag at its linear
index and add the written value to the running population. -/
def writeStep {α : Type} (ι : α → Nat) (f : α → Bool)
    (acc : List Bool × Int) (p : α) : List Bool × Int :=
  (acc.1.set (ι p) (f p), acc.2 + b2i (f p))

/-- compute_generation: iterate over every position of the old body,
write the rule's result into the new body's store at the position's
linear index, and accumulate the written liveness into the returned
population (the source zeroes the population first). -/
def compute_generation (body_new body_old : Body) : Body × Int :=
  let r := (positions body_old.cols body_old.rows).foldl
    (writeStep (fun p => p.1 * body_old.cols + p.2) (fun p => nextCell body_old p.1 p.2))
    (body_new.cells, 0)
  (⟨body_new.rows, body_new.cols, r.1⟩, r.2)

/-- compute_generation acting on the double-buffer state (next, prev):
the source writes only through body_new and reads only body_old. -/
def compute_generation_state (s : Body × Body) : (Body × Body) × Int :=
  (((compute_generation s.1 s.2).1, s.2), (compute_generation s.1 s.2).2)

/-- Number of alive cells of a body, counted over its positions in
storage order. -/
def aliveCount (b : Body) : Nat :=
  ((positions b.cols b.rows).filter (fun p => cellAt b p.1 p.2)).length

/-- One mouse click of drawing_mode: flip the cell stored at linear
index x * cols + y and move the population by 2 * alive - 1, the source
reading the freshly flipped flag. -/
def toggle (b : Body) (pop : Int) (x y : Nat) : Body × Int :=
  let i := x * b.cols + y
  let v := !(b.cells.getD i false)
  (⟨b.rows, b.cols, b.cells.set i v⟩, pop + 2 * b2i v - 1)

/-- Column range of random_mode: x runs from trunc(cols * 0.25) while
x < trunc(cols * 0.75); both doubles are exact, so the bounds are the
floored quarters. -/
def subXs (cols : Nat) : List Nat := List.range' (cols / 4) (3 * cols / 4 - cols / 4)

/-- Row range of random_mode, the same central half of the rows. -/
def subYs (rows : Nat) : List Nat := List.range' (rows / 4) (3 * rows / 4 - rows / 4)

/-- Sub-region positions visited by random_mode, in loop order (x outer,
y inner). -/
def subPositions (rows cols : Nat) : List (Nat × Nat) :=
  (subXs cols).flatMap (fun x => (subYs rows).map (fun y => (x, y)))

/-- One step of random_mode: the cell becomes alive when the next draw
rand() % 100 + 1 is at most the configured percentage; the flag is
stored at the position's linear index, added to the population, and the
draw counter advances. -/
def randStep (cols prob : Nat) (rng : Nat → Nat)
    (acc : List Bool × Int × Nat) (p : Nat × Nat) : List Bool × Int × Nat :=
  let v : Bool := decide (rng acc.2.2 % 100 + 1 ≤ prob)
  (acc.1.set (p.1 * cols + p.2) v, acc.2.1 + b2i v, acc.2.2 + 1)

/-- random_mode: visit the central sub-region in loop order, drawing one
value per cell from the stream rng of rand() results; returns the body
and the accumulated population. -/
def random_mode (b : Body) (pop : Int) (rng : Nat → Nat) (prob : Nat) : Body × Int :=
  let r := (subPositions b.rows b.cols).foldl (randStep b.cols prob rng) (b.cells, pop, 0)
  (⟨b.rows, b.cols, r.1⟩, r.2.1)

/-- Grid coordinate computed by pattern_mode from a file offset d:
trunc((size_t)d + dim * 0.5). For 0 ≤ d the doubles are exact and this
is d + dim / 2; for negative d the source's size_t cast makes the
conversion back from double overflow (undefined), so every statement
below stays in the non-negative regime. -/
def patternCoord (dim : Nat) (d : Int) : Nat := (d + ((dim / 2 : Nat) : Int)).toNat

/-- Body of the pattern_mode read loop: each data line (dx, dy) sets the
cell at (dx + cols/2, dy + rows/2) alive — a write of true at its linear
index — and adds 1 to the population. -/
def patternApply (b : Body) (pop : Int) (data : List (Int × Int)) : Body × Int :=
  let r := data.foldl
    (writeStep (fun q => patternCoord b.cols q.1 * b.cols + patternCoord b.rows q.2)
      (fun _ => true))
    (b.cells, pop)
  (⟨b.rows, b.cols, r.1⟩, r.2)

/-- pattern_mode: none models a pattern source that cannot be opened
(the source reports the error and returns NULL); otherwise the first
line is consumed as a header and the remaining data lines are applied.
Lines are modelled as the integer pairs their text encodes. -/
def pattern_mode (b : Body) (pop : Int) (file : Option (List (Int × Int))) :
    Option (Body × Int) :=
  file.map (fun lines => patternApply b pop (lines.drop 1))

/-- export_body as a coordinate list: the pairs (x, y) written to the
file after the header, one per alive cell, x outer and y inner exactly
as the export loops run. -/
def export_body (b : Body) : List (Nat × Nat) :=
  (positions b.cols b.rows).filter (fun p => cellAt b p.1 p.2)

/-- Re-import of an exported body: the exported pairs, read back as
signed offsets, applied by the pattern strategy to a fresh dead body of
the same dimensions. -/
def roundtrip (b : Body) : Body × Int :=
  patternApply (deadBody b.rows b.cols) 0
    ((export_body b).map (fun p => ((p.1 : Int), (p.2 : Int))))

theorem getD_replicate (n i : Nat) (a d : Bool) :
    (List.replicate n a).getD i d = if i < n then a else d := by
  rw [List.getD_eq_getElem?_getD, List.getElem?_replicate]
  by_cases h : i < n <;> simp [h]

theorem getD_set_self (l : List Bool) (i : Nat) (v d : Bool) (h : i < l.length) :
    (l.set i v).getD i d = v := by
  rw [List.getD_eq_getElem?_getD, List.getElem?_set_self h]
  rfl

theorem getD_set_ne (l : List Bool) (i j : Nat) (v d : Bool) (h : i ≠ j) :
    (l.set i v).getD j d = l.getD j d := by
  rw [List.getD_eq_getElem?_getD, List.getElem?_set_ne h, List.getD_eq_getElem?_getD]

theorem set_getD_self (l : List Bool) (i : Nat) (h : i < l.length) :
    l.set i (l.getD i false) = l := by
  apply List.ext_getElem?
  intro j
  by_cases hij : i = j
  · subst hij
    rw [List.getElem?_set_self h, List.getD_eq_getElem?_getD]
    cases hx : l[i]? with
    | none => exact absurd (List.getElem?_eq_none_iff.mp hx) (by omega)
    | some a => rfl
  · exact List.getElem?_set_ne hij

theorem idx_lt {rows cols u v : Nat} (hcr : cols ≤ rows) (hu : u < cols) (hv : v < rows) :
    u * cols + v < rows * cols := by
  have hc0 : 0 < cols := Nat.pos_of_ne_zero (by omega)
  calc u * cols + v
      ≤ (cols - 1) * rows + v := Nat.add_le_add_right (Nat.mul_le_mul (by omega) hcr) v
    _ < (cols - 1) * rows + rows := Nat.add_lt_add_left hv _
    _ = cols * rows := by
        have h2 := Nat.succ_mul (cols - 1) rows
        have h3 : (cols - 1).succ = cols := by omega
        rw [h3] at h2
        exact h2.symm
    _ = rows * cols := Nat.mul_comm _ _

theorem writeFold_length {α : Type} (ι : α → Nat) (f : α → Bool)
    (ps : List α) (s : List Bool × Int) :
    ((ps.foldl (writeStep ι f) s).1).length = s.1.length := by
  induction ps generalizing s with
  | nil => rfl
  | cons p ps ih => rw [List.foldl_cons, ih]; simp [writeStep]

theorem writeFold_pop {α : Type} (ι : α → Nat) (f : α → Bool)
    (ps : List α) (s : List Bool × Int) :
    (ps.foldl (writeStep ι f) s).2 = s.2 + (ps.map (fun p => b2i (f p))).sum := by
  induction ps generalizing s with
  | nil => simp
  | cons p ps ih =>
      rw [List.foldl_cons, ih]
      simp only [writeStep, List.map_cons, List.sum_cons]
      ring

theorem writeFold_untouched {α : Type} (ι : α → Nat) (f : α → Bool)
    {ps : List α} {j : Nat} (hj : ∀ p ∈ ps, ι p ≠ j) (s : List Bool × Int) (d : Bool) :
    (ps.foldl (writeStep ι f) s).1.getD j d = s.1.getD j d := by
  induction ps generalizing s with
  | nil => rfl
  | cons p ps ih =>
      rw [List.foldl_cons, ih (fun q hq => hj q (List.mem_cons_of_mem _ hq))]
      exact getD_set_ne _ _ _ _ _ (hj p (List.mem_cons_self _ _))

theorem writeFold_last {α : Type} (ι : α → Nat) (f : α → Bool)
    (l1 : List α) (q : α) (l2 : List α) (s : List Bool × Int)
    (hlen : ι q < s.1.length) (h2 : ∀ p ∈ l2, ι p ≠ ι q) :
    (((l1 ++ q :: l2).foldl (writeStep ι f) s).1).getD (ι q) false = f q := by
  induction l1 generalizing s with
  | nil =>
      rw [List.nil_append, List.foldl_cons, writeFold_untouched ι f h2]
      exact getD_set_self _ _ _ _ hlen
  | cons p l1 ih =>
      rw [List.cons_append, List.foldl_cons]
      exact ih _ (by simpa [writeStep] using hlen)

theorem writeFold_indep {α : Type} (ι : α → Nat) (f : α → Bool)
    (ps : List α) (j : Nat) (hmem : ∃ p ∈ ps, ι p = j) (s₁ s₂ : List Bool × Int)
    (h1 : j < s₁.1.length) (hlen : s₁.1.length = s₂.1.length) :
    (ps.foldl (writeStep ι f) s₁).1.getD j false =
      (ps.foldl (writeStep ι f) s₂).1.getD j false := by
  induction ps generalizing s₁ s₂ with
  | nil => exact absurd hmem (by simp)
  | cons p ps ih =>
      rw [List.foldl_cons, List.foldl_cons]
      by_cases hx : ∃ r ∈ ps, ι r = j
      · exact ih hx _ _ (by simpa [writeStep] using h1) (by simpa [writeStep] using hlen)
      · have hpj : ι p = j := by
          rcases hmem with ⟨r, hr, hrj⟩
          rcases List.mem_cons.mp hr with h | h
          · rw [← h]; exact hrj
          · exact absurd ⟨r, h, hrj⟩ hx
        have h2 : ∀ r ∈ ps, ι r ≠ j := fun r hr hc => hx ⟨r, hr, hc⟩
        rw [writeFold_untouched ι f h2, writeFold_untouched ι f h2]
        show (s₁.1.set (ι p) (f p)).getD j false = (s₂.1.set (ι p) (f p)).getD j false
        rw [hpj, getD_set_self _ _ _ _ h1, getD_set_self _ _ _ _ (hlen ▸ h1)]

theorem writeFold_true_iff {α : Type} (ι : α → Nat)
    (ps : List α) (s : List Bool × Int) (j : Nat) (hj : j < s.1.length) :
    ((ps.foldl (writeStep ι (fun _ => true)) s).1.getD j false = true ↔
      (s.1.getD j false = true ∨ ∃ q ∈ ps, ι q = j)) := by
  induction ps generalizing s with
  | nil => simp
  | cons p ps ih =>
      rw [List.foldl_cons, ih _ (by simpa [writeStep] using hj)]
      show ((s.1.set (ι p) true).getD j false = true ∨ _) ↔ _
      by_cases hpj : ι p = j
      · rw [hpj, getD_set_self _ _ _ _ hj]
        constructor
        · intro _; exact Or.inr ⟨p, List.mem_cons_self _ _, hpj⟩
        · intro _; exact Or.inl rfl
      · rw [getD_set_ne _ _ _ _ _ hpj]
        simp only [List.mem_cons]
        constructor
        · rintro (h | ⟨q, hq, hqj⟩)
          · exact Or.inl h
          · exact Or.inr ⟨q, Or.inr hq, hqj⟩
        · rintro (h | ⟨q, hq, hqj⟩)
          · exact Or.inl h
          · rcases hq with h' | h'
            · exact absurd (h' ▸ hqj) hpj
            · exact Or.inr ⟨q, h', hqj⟩

theorem nbTerm_eq_ind (body_old : Body) (x y : Nat) (a b : Int) :
    nbTerm body_old x y a b =
      if 0 ≤ (x : Int) + a ∧ (x : Int) + a ≤ (body_old.cols : Int) - 1 ∧
         0 ≤ (y : Int) + b ∧ (y : Int) + b ≤ (body_old.rows : Int) - 1 ∧
         cellAt body_old ((x : Int) + a).toNat ((y : Int) + b).toNat = true
      then (1 : Int) else 0 := by
  unfold nbTerm b2i
  by_cases hc : cellAt body_old ((x : Int) + a).toNat ((y : Int) + b).toNat = true
  · simp only [hc, if_true, and_true]
    split_ifs <;> omega
  · simp only [Bool.not_eq_true] at hc
    simp [hc]

theorem cellAt_allAlive {rows cols u v : Nat} (hcr : cols ≤ rows)
    (hu : u < cols) (hv : v < rows) : cellAt (allAlive rows cols) u v = true := by
  simp only [cellAt, allAlive]
  rw [getD_replicate, if_pos (idx_lt hcr hu hv)]

theorem cellAt_deadBody (rows cols u v : Nat) : cellAt (deadBody rows cols) u v = false := by
  simp only [cellAt, deadBody]
  rw [getD_replicate]
  split <;> rfl

theorem neighbors_eq_spec (body_old : Body) (x y : Nat)
    (hx : x < body_old.cols) (hy : y < body_old.rows) :
    neighbors body_old x y = specNeighborCount body_old x y := by
  have hcenter : nbTerm body_old x y 0 0 = b2i (cellAt body_old x y) := by
    unfold nbTerm
    rw [if_neg (by omega)]
    norm_num
  unfold neighbors specNeighborCount
  simp only [offs, nbrOffsets, List.map_cons, List.map_nil, List.sum_cons, List.sum_nil,
    add_zero]
  rw [hcenter]
  simp only [nbTerm_eq_ind]
  by_cases hc : cellAt body_old x y = true
  · simp only [hc, if_true, b2i]
    ring_nf
  · simp only [Bool.not_eq_true] at hc
    simp only [hc, if_false, Bool.false_eq_true, b2i]
    ring_nf

theorem range'_decomp (s L x : Nat) (h1 : s ≤ x) (h2 : x < s + L) :
    List.range' s L = List.range' s (x - s) ++ x :: List.range' (x + 1) (s + L - x - 1) ∧
      (List.range' s (x - s)).length = x - s ∧
      (∀ a ∈ List.range' (x + 1) (s + L - x - 1), x < a ∧ a < s + L) := by
  refine ⟨?_, List.length_range' .., ?_⟩
  · have e1 : s + 1 * (x - s) = x := by omega
    have ha := List.range'_append s (x - s) (L - (x - s)) 1
    rw [e1] at ha
    have e2 : L - (x - s) + (x - s) = L := by omega
    rw [e2] at ha
    have e3 : L - (x - s) = (s + L - x - 1) + 1 := by omega
    rw [e3, List.range'_succ] at ha
    exact ha.symm
  · intro a ha
    rw [List.mem_range'_1] at ha
    omega

theorem flatMap_pair_decomp (ys : List Nat) (xpre xsuf ypre ysuf : List Nat) (x y : Nat)
    (hy : ys = ypre ++ y :: ysuf) :
    (xpre ++ x :: xsuf).flatMap (fun a => ys.map (fun b => (a, b))) =
      (xpre.flatMap (fun a => ys.map (fun b => (a, b))) ++ ypre.map (fun b => (x, b)))
      ++ ((x, y) ::
        (ysuf.map (fun b => (x, b)) ++ xsuf.flatMap (fun a => ys.map (fun b => (a, b))))) := by
  rw [List.flatMap_append, List.flatMap_cons]
  rw [show ys.map (fun b => (x, b)) = ypre.map (fun b => (x, b)) ++
        ((x, y) :: ysuf.map (fun b => (x, b))) by rw [hy, List.map_append, List.map_cons]]
  simp [List.append_assoc]

theorem flatMap_pair_length (xs ys : List Nat) :
    (xs.flatMap (fun a => ys.map (fun b => (a, b)))).length = xs.length * ys.length := by
  induction xs with
  | nil => simp
  | cons p xs ih =>
      simp only [List.flatMap_cons, List.length_append, List.length_map, ih,
        List.length_cons]
      ring

theorem positions_decomp (cols rows x y : Nat) (hx : x < cols) (hy : y < rows) :
    ∃ l1 l2, positions cols rows = l1 ++ (x, y) :: l2 ∧
      l1.length = x * rows + y ∧
      (∀ p ∈ l2, (p.1 = x ∧ y < p.2 ∧ p.2 < rows) ∨ (x < p.1 ∧ p.1 < cols ∧ p.2 < rows)) := by
  obtain ⟨hxeq, hxlen, hxsuf⟩ := range'_decomp 0 cols x (by omega) (by omega)
  obtain ⟨hyeq, hylen, hysuf⟩ := range'_decomp 0 rows y (by omega) (by omega)
  refine ⟨(List.range' 0 (x - 0)).flatMap
      (fun a => (List.range rows).map (fun b => (a, b))) ++
      (List.range' 0 (y - 0)).map (fun b => (x, b)),
    (List.range' (y + 1) (0 + rows - y - 1)).map (fun b => (x, b)) ++
      (List.range' (x + 1) (0 + cols - x - 1)).flatMap
        (fun a => (List.range rows).map (fun b => (a, b))), ?_, ?_, ?_⟩
  · unfold positions
    rw [show List.range cols = List.range' 0 cols from List.range_eq_range' cols, hxeq]
    have hry : List.range rows = List.range' 0 (y - 0) ++ y ::
        List.range' (y + 1) (0 + rows - y - 1) := by
      rw [List.range_eq_range' rows]; exact hyeq
    exact flatMap_pair_decomp (List.range rows) _ _ _ _ x y hry
  · simp only [List.length_append, flatMap_pair_length, List.length_map,
      List.length_range', List.length_range, Nat.sub_zero]
  · intro p hp
    rcases List.mem_append.mp hp with h | h
    · rcases List.mem_map.mp h with ⟨b, hb, hpb⟩
      have hb' := hysuf b hb
      left
      rw [← hpb]
      exact ⟨rfl, by omega, by omega⟩
    · rcases List.mem_flatMap.mp h with ⟨a, ha, hpa⟩
      rcases List.mem_map.mp hpa with ⟨b, hb, hpb⟩
      have ha' := hxsuf a ha
      have hb' := List.mem_range.mp hb
      right
      rw [← hpb]
      exact ⟨by omega, by omega, by omega⟩

theorem subPositions_decomp (rows cols x y : Nat)
    (hx1 : cols / 4 ≤ x) (hx2 : x < 3 * cols / 4)
    (hy1 : rows / 4 ≤ y) (hy2 : y < 3 * rows / 4) :
    ∃ l1 l2, subPositions rows cols = l1 ++ (x, y) :: l2 ∧
      l1.length = (x - cols / 4) * (3 * rows / 4 - rows / 4) + (y - rows / 4) ∧
      (∀ p ∈ l2, (p.1 = x ∧ y < p.2 ∧ p.2 < 3 * rows / 4) ∨
        (x < p.1 ∧ p.1 < 3 * cols / 4 ∧ p.2 < 3 * rows / 4)) := by
  obtain ⟨hxeq, hxlen, hxsuf⟩ :=
    range'_decomp (cols / 4) (3 * cols / 4 - cols / 4) x hx1 (by omega)
  obtain ⟨hyeq, hylen, hysuf⟩ :=
    range'_decomp (rows / 4) (3 * rows / 4 - rows / 4) y hy1 (by omega)
  refine ⟨(List.range' (cols / 4) (x - cols / 4)).flatMap
      (fun a => (subYs rows).map (fun b => (a, b))) ++
      (List.range' (rows / 4) (y - rows / 4)).map (fun b => (x, b)),
    (List.range' (y + 1) (rows / 4 + (3 * rows / 4 - rows / 4) - y - 1)).map
        (fun b => (x, b)) ++
      (List.range' (x + 1) (cols / 4 + (3 * cols / 4 - cols / 4) - x - 1)).flatMap
        (fun a => (subYs rows).map (fun b => (a, b))), ?_, ?_, ?_⟩
  · unfold subPositions subXs
    rw [hxeq]
    have hry : subYs rows = List.range' (rows / 4) (y - rows / 4) ++ y ::
        List.range' (y + 1) (rows / 4 + (3 * rows / 4 - rows / 4) - y - 1) := hyeq
    exact flatMap_pair_decomp (subYs rows) _ _ _ _ x y hry
  · simp only [List.length_append, flatMap_pair_length, List.length_map,
      List.length_range', subYs]
  · intro p hp
    rcases List.mem_append.mp hp with h | h
    · rcases List.mem_map.mp h with ⟨b, hb, hpb⟩
      have hb' := hysuf b hb
      left
      rw [← hpb]
      exact ⟨rfl, by omega, by omega⟩
    · rcases List.mem_flatMap.mp h with ⟨a, ha, hpa⟩
      rcases List.mem_map.mp hpa with ⟨b, hb, hpb⟩
      have ha' := hxsuf a ha
      have hb' : rows / 4 ≤ b ∧ b < rows / 4 + (3 * rows / 4 - rows / 4) := by
        have := List.mem_range'_1.mp (show b ∈ List.range' (rows / 4)
          (3 * rows / 4 - rows / 4) from hb)
        omega
      right
      rw [← hpb]
      exact ⟨by omega, by omega, by omega⟩

theorem suffix_idx_ne {n x y : Nat} (hy : y < n) (p : Nat × Nat)
    (hp : (p.1 = x ∧ y < p.2 ∧ p.2 < n) ∨ (x < p.1 ∧ p.2 < n)) :
    p.1 * n + p.2 ≠ x * n + y := by
  rcases hp with ⟨h1, h2, _⟩ | ⟨h1, h2⟩
  · rw [h1]
    intro hEq
    exact absurd (Nat.add_left_cancel hEq) (by omega)
  · intro hEq
    have hm : (x + 1) * n ≤ p.1 * n := Nat.mul_le_mul (by omega) (le_refl n)
    rw [Nat.succ_mul] at hm
    have hlt : x * n + y < p.1 * n + p.2 := by
      have : x * n + y < x * n + n := by omega
      exact lt_of_lt_of_le this (le_trans hm (Nat.le_add_right _ _))
    exact absurd hEq (by omega)

theorem mem_positions {cols rows : Nat} {p : Nat × Nat} :
    p ∈ positions cols rows ↔ p.1 < cols ∧ p.2 < rows := by
  obtain ⟨u, v⟩ := p
  simp only [positions, List.mem_flatMap, List.mem_map, List.mem_range, Prod.mk.injEq]
  constructor
  · rintro ⟨a, ha, b, hb, h1, h2⟩
    subst h1; subst h2
    exact ⟨ha, hb⟩
  · rintro ⟨h1, h2⟩
    exact ⟨u, h1, v, h2, rfl, rfl⟩

theorem mem_subPositions {rows cols : Nat} {p : Nat × Nat} :
    p ∈ subPositions rows cols ↔
      cols / 4 ≤ p.1 ∧ p.1 < 3 * cols / 4 ∧ rows / 4 ≤ p.2 ∧ p.2 < 3 * rows / 4 := by
  obtain ⟨u, v⟩ := p
  simp only [subPositions, subXs, subYs, List.mem_flatMap, List.mem_map,
    List.mem_range'_1, Prod.mk.injEq]
  constructor
  · rintro ⟨a, ha, b, hb, h1, h2⟩
    subst h1; subst h2
    exact ⟨ha.1, by omega, hb.1, by omega⟩
  · rintro ⟨h1, h2, h3, h4⟩
    exact ⟨u, ⟨h1, by omega⟩, v, ⟨h3, by omega⟩, rfl, rfl⟩

theorem sum_b2i_eq_filter_length {α : Type} (l : List α) (g : α → Bool) :
    (l.map (fun p => b2i (g p))).sum = ((l.filter g).length : Int) := by
  induction l with
  | nil => simp
  | cons p l ih =>
      simp only [List.map_cons, List.sum_cons, ih, List.filter_cons]
      by_cases h : g p = true
      · simp only [h, if_true, List.length_cons, b2i]
        push_cast
        ring
      · simp only [Bool.not_eq_true] at h
        simp [h, b2i]

theorem compute_generation_at (body_new body_old : Body) (n : Nat)
    (hor : body_old.rows = n) (hoc : body_old.cols = n) (hnc : body_new.cols = n)
    (hlen : body_new.cells.length = n * n)
    (x y : Nat) (hx : x < n) (hy : y < n) :
    cellAt (compute_generation body_new body_old).1 x y = nextCell body_old x y := by
  obtain ⟨l1, l2, hdec, hlen1, hsuf⟩ := positions_decomp n n x y hx hy
  show ((positions body_old.cols body_old.rows).foldl
      (writeStep (fun p => p.1 * body_old.cols + p.2)
        (fun p => nextCell body_old p.1 p.2))
      (body_new.cells, 0)).1.getD (x * body_new.cols + y) false = nextCell body_old x y
  rw [hor, hoc, hnc, hdec]
  have hne : ∀ p ∈ l2, p.1 * n + p.2 ≠ x * n + y := by
    intro p hp
    exact suffix_idx_ne hy p ((hsuf p hp).imp id (fun h => ⟨h.1, h.2.2⟩))
  have := writeFold_last (fun p : Nat × Nat => p.1 * n + p.2)
    (fun p => nextCell body_old p.1 p.2) l1 (x, y) l2 (body_new.cells, 0)
    (by simpa [hlen] using idx_lt (le_refl n) hx hy) hne
  exact this

/-- C10: the neighbor value the generation engine computes — an accumulator
seeded with -1 when the cell itself is alive and 0 otherwise, then the alive
state of every in-bounds cell of the full 3x3 block centred at (x, y),
centre included — equals the direct count of alive cells among the in-bounds
subset of the 8 surrounding positions with the centre excluded. -/
theorem neighbors_refines_direct_count (b : Body) (x y : Nat)
    (hx : x < b.cols) (hy : y < b.rows) :
    neighbors b x y = specNeighborCount b x y :=
  neighbors_eq_spec b x y hx hy

/-- Witness for the C10 theorem at a concrete body and position. -/
theorem neighbors_refines_direct_count_witness :
    neighbors ⟨2, 2, [true, true, false, true]⟩ 0 1 =
      specNeighborCount ⟨2, 2, [true, true, false, true]⟩ 0 1 :=
  neighbors_refines_direct_count ⟨2, 2, [true, true, false, true]⟩ 0 1
    (by decide) (by decide)

/-- C1 fails as stated: in a 3-row, 2-column grid the linear index x * cols + y
aliases positions (0,2) and (1,0); the later loop iteration for (1,0)
overwrites the value written for (0,2), so next's cell at (0,2) disagrees with
the claimed rule at (0,2). -/
theorem compute_generation_cell_rule_cex :
    cellAt (compute_generation ⟨3, 2, List.replicate 6 false⟩
        ⟨3, 2, [false, true, false, true, true, false]⟩).1 0 2 ≠
      claimRule ⟨3, 2, [false, true, false, true, true, false]⟩ 0 2 := by
  decide

/-- C1 amended: for square grids (rows = cols = n, as the storage formula of
the source requires), compute_generation writes into next at every in-bounds
position (x, y) exactly the state the claim describes: dead when prev's cell
is alive with direct neighbor count below 2 or above 3, alive when prev's cell
is dead with direct neighbor count 3, otherwise prev's state — the direct
count ranging over the 8 surrounding positions with out-of-grid positions
excluded. -/
theorem compute_generation_cell_rule (body_new body_old : Body) (n : Nat)
    (h1 : body_old.rows = n) (h2 : body_old.cols = n)
    (h3 : body_new.rows = n) (h4 : body_new.cols = n) (h5 : WF body_new)
    (x y : Nat) (hx : x < n) (hy : y < n) :
    cellAt (compute_generation body_new body_old).1 x y = claimRule body_old x y := by
  rw [compute_generation_at body_new body_old n h1 h2 h4 (by rw [h5, h3, h4]) x y hx hy]
  unfold nextCell claimRule
  rw [neighbors_eq_spec body_old x y (by omega) (by omega)]

/-- Witness for the amended C1 theorem on a concrete 1x1 pair of grids. -/
theorem compute_generation_cell_rule_witness :
    cellAt (compute_generation ⟨1, 1, [false]⟩ ⟨1, 1, [true]⟩).1 0 0 =
      claimRule ⟨1, 1, [true]⟩ 0 0 :=
  compute_generation_cell_rule ⟨1, 1, [false]⟩ ⟨1, 1, [true]⟩ 1 rfl rfl rfl rfl
    rfl 0 0 (by decide) (by decide)

/-- C2 fails as stated: in the aliased 3-row, 2-column grid of the C1
counterexample the population accumulated by compute_generation counts the
aliased index twice and returns 4, while the produced grid holds 3 alive
cells. -/
theorem compute_generation_population_cex :
    (compute_generation ⟨3, 2, List.replicate 6 false⟩
        ⟨3, 2, [false, true, false, true, true, false]⟩).2 ≠
      (aliveCount (compute_generation ⟨3, 2, List.replicate 6 false⟩
        ⟨3, 2, [false, true, false, true, true, false]⟩).1 : Int) := by
  decide

/-- C2 amended: for square grids the population value compute_generation
returns equals the number of alive cells of the grid it wrote. -/
theorem compute_generation_population (body_new body_old : Body) (n : Nat)
    (h1 : body_old.rows = n) (h2 : body_old.cols = n)
    (h3 : body_new.rows = n) (h4 : body_new.cols = n) (h5 : WF body_new) :
    (compute_generation body_new body_old).2 =
      (aliveCount (compute_generation body_new body_old).1 : Int) := by
  have hchar : ∀ p ∈ positions n n,
      cellAt (compute_generation body_new body_old).1 p.1 p.2 =
        nextCell body_old p.1 p.2 := by
    intro p hp
    have hm := mem_positions.mp hp
    exact compute_generation_at body_new body_old n h1 h2 h4 (by rw [h5, h3, h4])
      p.1 p.2 hm.1 hm.2
  have hRcols : (compute_generation body_new body_old).1.cols = n := by
    show body_new.cols = n
    exact h4
  have hRrows : (compute_generation body_new body_old).1.rows = n := by
    show body_new.rows = n
    exact h3
  have hRHS : (aliveCount (compute_generation body_new body_old).1 : Int) =
      ((positions n n).map (fun p => b2i (nextCell body_old p.1 p.2))).sum := by
    unfold aliveCount
    rw [hRcols, hRrows, ← sum_b2i_eq_filter_length]
    exact congrArg List.sum (List.map_congr_left (fun p hp => by rw [hchar p hp]))
  have hLHS : (compute_generation body_new body_old).2 =
      ((positions n n).map (fun p => b2i (nextCell body_old p.1 p.2))).sum := by
    show ((positions body_old.cols body_old.rows).foldl
      (writeStep (fun p => p.1 * body_old.cols + p.2)
        (fun p => nextCell body_old p.1 p.2)) (body_new.cells, 0)).2 = _
    rw [h1, h2, writeFold_pop]
    simp
  rw [hLHS, hRHS]

/-- Witness for the amended C2 theorem on a concrete 2x2 pair of grids. -/
theorem compute_generation_population_witness :
    (compute_generation ⟨2, 2, List.replicate 4 false⟩
        ⟨2, 2, [true, true, false, true]⟩).2 =
      (aliveCount (compute_generation ⟨2, 2, List.replicate 4 false⟩
        ⟨2, 2, [true, true, false, true]⟩).1 : Int) :=
  compute_generation_population ⟨2, 2, List.replicate 4 false⟩
    ⟨2, 2, [true, true, false, true]⟩ 2 rfl rfl rfl rfl rfl

/-- C5: compute_generation assigns a state to every cell of next — at every
in-bounds position the produced state does not depend on next's prior cell
states — and leaves prev untouched: in the double-buffer state the prev
component after the call is prev itself. -/
theorem compute_generation_writes_all_frame (body_old nw₁ nw₂ : Body)
    (hcr : body_old.cols ≤ body_old.rows)
    (h1 : WF nw₁) (h2 : WF nw₂)
    (hr1 : nw₁.rows = body_old.rows) (hc1 : nw₁.cols = body_old.cols)
    (hr2 : nw₂.rows = body_old.rows) (hc2 : nw₂.cols = body_old.cols)
    (x y : Nat) (hx : x < body_old.cols) (hy : y < body_old.rows) :
    cellAt (compute_generation nw₁ body_old).1 x y =
      cellAt (compute_generation nw₂ body_old).1 x y
    ∧ (compute_generation_state (nw₁, body_old)).1.2 = body_old := by
  constructor
  · show ((positions body_old.cols body_old.rows).foldl
        (writeStep (fun p => p.1 * body_old.cols + p.2)
          (fun p => nextCell body_old p.1 p.2))
        (nw₁.cells, 0)).1.getD (x * nw₁.cols + y) false =
      ((positions body_old.cols body_old.rows).foldl
        (writeStep (fun p => p.1 * body_old.cols + p.2)
          (fun p => nextCell body_old p.1 p.2))
        (nw₂.cells, 0)).1.getD (x * nw₂.cols + y) false
    rw [hc1, hc2]
    have hl1 : nw₁.cells.length = body_old.rows * body_old.cols := by
      rw [h1, hr1, hc1]
    have hl2 : nw₂.cells.length = body_old.rows * body_old.cols := by
      rw [h2, hr2, hc2]
    exact writeFold_indep _ _ (positions body_old.cols body_old.rows)
      (x * body_old.cols + y) ⟨(x, y), mem_positions.mpr ⟨hx, hy⟩, rfl⟩
      (nw₁.cells, 0) (nw₂.cells, 0) (by rw [hl1]; exact idx_lt hcr hx hy)
      (by rw [hl1, hl2])
  · rfl

/-- Witness for the C5 theorem on concrete 1x1 grids with different initial
next contents. -/
theorem compute_generation_writes_all_frame_witness :
    cellAt (compute_generation ⟨1, 1, [false]⟩ ⟨1, 1, [true]⟩).1 0 0 =
      cellAt (compute_generation ⟨1, 1, [true]⟩ ⟨1, 1, [true]⟩).1 0 0
    ∧ (compute_generation_state (⟨1, 1, [false]⟩, ⟨1, 1, [true]⟩)).1.2 =
      ⟨1, 1, [true]⟩ :=
  compute_generation_writes_all_frame ⟨1, 1, [true]⟩ ⟨1, 1, [false]⟩ ⟨1, 1, [true]⟩
    (by decide) rfl rfl rfl rfl rfl rfl 0 0 (by decide) (by decide)

theorem pair_idx_inj {n u v x y : Nat} (hv : v < n) (hy : y < n)
    (h : u * n + v = x * n + y) : u = x ∧ v = y := by
  have hn : 0 < n := by omega
  have h1 : (u * n + v) / n = u := by
    have hd := Nat.mul_add_div hn u v
    rw [Nat.mul_comm n u] at hd
    rw [hd, Nat.div_eq_of_lt hv]
    omega
  have h2 : (x * n + y) / n = x := by
    have hd := Nat.mul_add_div hn x y
    rw [Nat.mul_comm n x] at hd
    rw [hd, Nat.div_eq_of_lt hy]
    omega
  have hux : u = x := by rw [← h1, ← h2, h]
  refine ⟨hux, ?_⟩
  rw [hux] at h
  exact Nat.add_left_cancel h

theorem nbTerm_allAlive {rows cols x y : Nat} (hcr : cols ≤ rows) (a b : Int) :
    nbTerm (allAlive rows cols) x y a b =
      (if 0 ≤ (x : Int) + a ∧ (x : Int) + a ≤ (cols : Int) - 1 then (1 : Int) else 0) *
      (if 0 ≤ (y : Int) + b ∧ (y : Int) + b ≤ (rows : Int) - 1 then (1 : Int) else 0) := by
  unfold nbTerm
  simp only [allAlive]
  by_cases hA : 0 ≤ (x : Int) + a ∧ (x : Int) + a ≤ (cols : Int) - 1
  · by_cases hB : 0 ≤ (y : Int) + b ∧ (y : Int) + b ≤ (rows : Int) - 1
    · have hcell : cellAt (allAlive rows cols) ((x : Int) + a).toNat
          ((y : Int) + b).toNat = true :=
        cellAt_allAlive hcr (by omega) (by omega)
      simp only [allAlive] at hcell
      rw [if_neg (by omega), hcell, if_pos hA, if_pos hB]
      simp [b2i]
    · rw [if_pos (by omega), if_pos hA, if_neg hB]
      simp
  · rw [if_pos (by omega), if_neg hA]
    simp

/-- C4 fails as stated for degenerate grids: in the 1x1 all-alive grid the
engine's neighbor count at the corner (0,0) is 0, not 3. -/
theorem all_alive_corner_cex : neighbors (allAlive 1 1) 0 0 ≠ 3 := by decide

/-- C4 amended: in all-alive grids with at least two columns (and cols ≤ rows
so every linearised access stays inside the allocation) the engine computes
exactly 3 neighbors for the corner (0,0) and exactly 5 for every edge
non-corner cell. -/
theorem all_alive_neighbor_counts (rows cols : Nat) (h2 : 2 ≤ cols) (hcr : cols ≤ rows) :
    neighbors (allAlive rows cols) 0 0 = 3 ∧
    ∀ x y, x < cols → y < rows →
      (x = 0 ∨ x = cols - 1 ∨ y = 0 ∨ y = rows - 1) →
      ¬((x = 0 ∨ x = cols - 1) ∧ (y = 0 ∨ y = rows - 1)) →
      neighbors (allAlive rows cols) x y = 5 := by
  constructor
  · unfold neighbors
    simp only [offs, List.map_cons, List.map_nil, List.sum_cons, List.sum_nil, add_zero]
    simp only [cellAt_allAlive hcr (show (0 : Nat) < cols by omega)
      (show (0 : Nat) < rows by omega), if_true]
    simp only [nbTerm_allAlive hcr]
    split_ifs <;> omega
  · intro x y hx hy hedge hcorner
    unfold neighbors
    simp only [offs, List.map_cons, List.map_nil, List.sum_cons, List.sum_nil, add_zero]
    simp only [cellAt_allAlive hcr hx hy, if_true]
    simp only [nbTerm_allAlive hcr]
    split_ifs <;> omega

/-- Witness for the amended C4 theorem on the 3x3 all-alive grid: corner and
the edge non-corner cell (0,1). -/
theorem all_alive_neighbor_counts_witness :
    neighbors (allAlive 3 3) 0 0 = 3 ∧ neighbors (allAlive 3 3) 0 1 = 5 :=
  ⟨(all_alive_neighbor_counts 3 3 (by decide) (by decide)).1,
    (all_alive_neighbor_counts 3 3 (by decide) (by decide)).2 0 1
      (by decide) (by decide) (by decide) (by decide)⟩

/-- C9 fails as stated: in a 3-row, 2-column grid a single toggle at (0,2)
also changes the state read at the distinct position (1,0), because both
positions share the linear index 2; the toggle does not flip exactly one
addressed cell position. -/
theorem toggle_single_cell_cex :
    cellAt (toggle (deadBody 3 2) 0 0 2).1 1 0 ≠ cellAt (deadBody 3 2) 1 0 := by
  decide

/-- C9 amended: on square grids, toggling twice at the same in-bounds
position restores both the body and the population; a single toggle flips
exactly the addressed cell, leaves every other position unchanged, and moves
the population by +1 when the cell became alive and -1 when it became dead. -/
theorem toggle_spec_square (b : Body) (n : Nat) (pop : Int)
    (hr : b.rows = n) (hc : b.cols = n) (hwf : WF b)
    (x y : Nat) (hx : x < n) (hy : y < n) :
    (toggle (toggle b pop x y).1 (toggle b pop x y).2 x y).1 = b ∧
    (toggle (toggle b pop x y).1 (toggle b pop x y).2 x y).2 = pop ∧
    (∀ u v, u < n → v < n →
      cellAt (toggle b pop x y).1 u v =
        if u = x ∧ v = y then !(cellAt b x y) else cellAt b u v) ∧
    (toggle b pop x y).2 = pop + (if cellAt b x y = true then -1 else 1) := by
  have hlen : x * b.cols + y < b.cells.length := by
    rw [hwf, hr, hc]
    exact idx_lt (le_refl n) (hc ▸ hx) hy
  have hv : (toggle b pop x y).1.cells.getD (x * b.cols + y) false =
      !(b.cells.getD (x * b.cols + y) false) := by
    show ((b.cells.set (x * b.cols + y) (!(b.cells.getD (x * b.cols + y) false))).getD
      (x * b.cols + y) false) = _
    exact getD_set_self _ _ _ _ hlen
  have hcols1 : (toggle b pop x y).1.cols = b.cols := rfl
  refine ⟨?_, ?_, ?_, ?_⟩
  · show (⟨b.rows, b.cols, (toggle b pop x y).1.cells.set
      (x * (toggle b pop x y).1.cols + y)
      (!((toggle b pop x y).1.cells.getD (x * (toggle b pop x y).1.cols + y) false))⟩
      : Body) = b
    rw [hcols1]
    rw [show (toggle b pop x y).1.cells.getD (x * b.cols + y) false =
      !(b.cells.getD (x * b.cols + y) false) from hv]
    show (⟨b.rows, b.cols, (b.cells.set (x * b.cols + y)
      (!(b.cells.getD (x * b.cols + y) false))).set (x * b.cols + y)
      (!(!(b.cells.getD (x * b.cols + y) false)))⟩ : Body) = b
    rw [List.set_set, Bool.not_not, set_getD_self _ _ hlen]
  · show (toggle b pop x y).2 + 2 * b2i (!((toggle b pop x y).1.cells.getD
      (x * (toggle b pop x y).1.cols + y) false)) - 1 = pop
    rw [hcols1, hv, Bool.not_not]
    show pop + 2 * b2i (!(b.cells.getD (x * b.cols + y) false)) - 1 +
      2 * b2i (b.cells.getD (x * b.cols + y) false) - 1 = pop
    cases b.cells.getD (x * b.cols + y) false <;> simp [b2i] <;> ring
  · intro u v hu hvlt
    show ((b.cells.set (x * b.cols + y) (!(b.cells.getD (x * b.cols + y) false))).getD
      (u * b.cols + v) false) = _
    by_cases heq : u = x ∧ v = y
    · rw [heq.1, heq.2, if_pos ⟨rfl, rfl⟩]
      exact getD_set_self _ _ _ _ hlen
    · rw [if_neg heq]
      have hne : x * b.cols + y ≠ u * b.cols + v := by
        intro hcontra
        rw [hc] at hcontra
        exact heq ⟨(pair_idx_inj hvlt hy hcontra.symm).1, (pair_idx_inj hvlt hy hcontra.symm).2⟩
      exact getD_set_ne _ _ _ _ _ hne
  · show pop + 2 * b2i (!(b.cells.getD (x * b.cols + y) false)) - 1 = _
    show _ = pop + (if cellAt b x y = true then -1 else 1)
    unfold cellAt
    cases b.cells.getD (x * b.cols + y) false <;> simp [b2i] <;> ring

/-- Witness for the amended C9 theorem on a concrete 2x2 grid. -/
theorem toggle_spec_square_witness :
    (toggle (toggle ⟨2, 2, [true, false, false, true]⟩ 2 0 1).1
        (toggle ⟨2, 2, [true, false, false, true]⟩ 2 0 1).2 0 1).1 =
      ⟨2, 2, [true, false, false, true]⟩ ∧
    (toggle (toggle ⟨2, 2, [true, false, false, true]⟩ 2 0 1).1
        (toggle ⟨2, 2, [true, false, false, true]⟩ 2 0 1).2 0 1).2 = 2 ∧
    (∀ u v, u < 2 → v < 2 →
      cellAt (toggle ⟨2, 2, [true, false, false, true]⟩ 2 0 1).1 u v =
        if u = 0 ∧ v = 1 then !(cellAt ⟨2, 2, [true, false, false, true]⟩ 0 1)
        else cellAt ⟨2, 2, [true, false, false, true]⟩ u v) ∧
    (toggle ⟨2, 2, [true, false, false, true]⟩ 2 0 1).2 =
      2 + (if cellAt ⟨2, 2, [true, false, false, true]⟩ 0 1 = true then -1 else 1) :=
  toggle_spec_square ⟨2, 2, [true, false, false, true]⟩ 2 2 rfl rfl rfl 0 1
    (by decide) (by decide)

theorem randFold_length (cols prob : Nat) (rng : Nat → Nat) (ps : List (Nat × Nat))
    (s : List Bool × Int × Nat) :
    ((ps.foldl (randStep cols prob rng) s).1).length = s.1.length := by
  induction ps generalizing s with
  | nil => rfl
  | cons p ps ih => rw [List.foldl_cons, ih]; simp [randStep]

theorem randFold_untouched (cols prob : Nat) (rng : Nat → Nat)
    {ps : List (Nat × Nat)} {j : Nat} (hj : ∀ p ∈ ps, p.1 * cols + p.2 ≠ j)
    (s : List Bool × Int × Nat) :
    (ps.foldl (randStep cols prob rng) s).1.getD j false = s.1.getD j false := by
  induction ps generalizing s with
  | nil => rfl
  | cons p ps ih =>
      rw [List.foldl_cons, ih (fun q hq => hj q (List.mem_cons_of_mem _ hq))]
      exact getD_set_ne _ _ _ _ _ (hj p (List.mem_cons_self _ _))

theorem randFold_last (cols prob : Nat) (rng : Nat → Nat)
    (l1 : List (Nat × Nat)) (q : Nat × Nat) (l2 : List (Nat × Nat))
    (s : List Bool × Int × Nat) (hlen : q.1 * cols + q.2 < s.1.length)
    (h2 : ∀ p ∈ l2, p.1 * cols + p.2 ≠ q.1 * cols + q.2) :
    (((l1 ++ q :: l2).foldl (randStep cols prob rng) s).1).getD (q.1 * cols + q.2) false =
      decide (rng (s.2.2 + l1.length) % 100 + 1 ≤ prob) := by
  induction l1 generalizing s with
  | nil =>
      rw [List.nil_append, List.foldl_cons, randFold_untouched cols prob rng h2]
      show (s.1.set (q.1 * cols + q.2) _).getD _ false = _
      rw [getD_set_self _ _ _ _ hlen]
      norm_num
  | cons p l1 ih =>
      rw [List.cons_append, List.foldl_cons,
        ih _ (by simpa [randStep] using hlen)]
      have harg : (randStep cols prob rng s p).2.2 + l1.length =
          s.2.2 + (p :: l1).length := by
        simp [randStep]
        omega
      rw [harg]

theorem randFold_pop_const (cols prob : Nat) (rng : Nat → Nat) (vb : Bool)
    (hv : ∀ k, decide (rng k % 100 + 1 ≤ prob) = vb)
    (ps : List (Nat × Nat)) (s : List Bool × Int × Nat) :
    (ps.foldl (randStep cols prob rng) s).2.1 = s.2.1 + (ps.length : Int) * b2i vb := by
  induction ps generalizing s with
  | nil => simp
  | cons p ps ih =>
      rw [List.foldl_cons, ih]
      show (s.2.1 + b2i (decide (rng s.2.2 % 100 + 1 ≤ prob))) + _ = _
      rw [hv s.2.2]
      simp only [List.length_cons]
      push_cast
      ring

theorem subPositions_length (rows cols : Nat) :
    (subPositions rows cols).length = (3 * cols / 4 - cols / 4) * (3 * rows / 4 - rows / 4) := by
  unfold subPositions subXs subYs
  rw [flatMap_pair_length, List.length_range', List.length_range']

/-- C6 fails as stated: in a 5-row, 2-column grid, seeding with probability
100 makes the cell read at the outside position (1,0) alive, because (1,0)
shares linear index 2 with the inside position (0,2); a cell outside the
sub-region does not remain dead. -/
theorem random_mode_outside_cex :
    (1, 0) ∉ subPositions 5 2 ∧
    cellAt (random_mode (deadBody 5 2) 0 (fun _ => 0) 100).1 1 0 = true := by
  decide

/-- C6 amended: on square all-dead grids, random seeding leaves every cell
outside the central sub-region dead and makes each sub-region cell alive
exactly when its draw — rand() % 100 + 1 at the cell's rank in loop order —
is at most the percentage; with percentage 0 the returned population is 0,
and with percentage 100 it is the number of cells of the sub-region. -/
theorem random_mode_spec (n : Nat) (rng : Nat → Nat) (prob : Nat) :
    (∀ u v, u < n → v < n →
      ¬(n / 4 ≤ u ∧ u < 3 * n / 4 ∧ n / 4 ≤ v ∧ v < 3 * n / 4) →
      cellAt (random_mode (deadBody n n) 0 rng prob).1 u v = false) ∧
    (∀ u v, n / 4 ≤ u → u < 3 * n / 4 → n / 4 ≤ v → v < 3 * n / 4 →
      cellAt (random_mode (deadBody n n) 0 rng prob).1 u v =
        decide (rng ((u - n / 4) * (3 * n / 4 - n / 4) + (v - n / 4)) % 100 + 1 ≤ prob)) ∧
    (random_mode (deadBody n n) 0 rng 0).2 = 0 ∧
    (random_mode (deadBody n n) 0 rng 100).2 =
      (((3 * n / 4 - n / 4) * (3 * n / 4 - n / 4) : Nat) : Int) := by
  refine ⟨?_, ?_, ?_, ?_⟩
  · intro u v hu hv hout
    show ((subPositions n n).foldl (randStep n prob rng)
      (List.replicate (n * n) false, 0, 0)).1.getD (u * n + v) false = false
    rw [randFold_untouched n prob rng (fun p hp => ?_) _]
    · rw [getD_replicate]
      split <;> rfl
    · intro hEq
      have hm := mem_subPositions.mp hp
      have hb : p.2 < n := by omega
      obtain ⟨h1, h2⟩ := pair_idx_inj hb hv hEq
      exact hout ⟨by omega, by omega, by omega, by omega⟩
  · intro u v hu1 hu2 hv1 hv2
    obtain ⟨l1, l2, hdec, hlen1, hsuf⟩ := subPositions_decomp n n u v hu1 hu2 hv1 hv2
    show ((subPositions n n).foldl (randStep n prob rng)
      (List.replicate (n * n) false, 0, 0)).1.getD (u * n + v) false = _
    rw [hdec]
    have hne : ∀ p ∈ l2, p.1 * n + p.2 ≠ u * n + v := by
      intro p hp
      exact suffix_idx_ne (by omega) p
        ((hsuf p hp).imp (fun h => ⟨h.1, h.2.1, by omega⟩) (fun h => ⟨h.1, by omega⟩))
    have := randFold_last n prob rng l1 (u, v) l2 (List.replicate (n * n) false, 0, 0)
      (by simp only [List.length_replicate]
          exact idx_lt (le_refl n) (by omega) (by omega)) hne
    rw [this, hlen1]
    norm_num
  · show ((subPositions n n).foldl (randStep n 0 rng)
      (List.replicate (n * n) false, 0, 0)).2.1 = 0
    rw [randFold_pop_const n 0 rng false (fun k => by simp)]
    simp [b2i]
  · show ((subPositions n n).foldl (randStep n 100 rng)
      (List.replicate (n * n) false, 0, 0)).2.1 = _
    rw [randFold_pop_const n 100 rng true (fun k => decide_eq_true (by omega))]
    rw [subPositions_length]
    simp [b2i]

/-- Witness for the amended C6 theorem: a 4x4 grid with an all-zero draw
stream and percentage 100, evaluated at the sub-region cell (1,1). -/
theorem random_mode_spec_witness :
    cellAt (random_mode (deadBody 4 4) 0 (fun _ => 0) 100).1 1 1 =
      decide ((fun _ => 0 : Nat → Nat)
        ((1 - 4 / 4) * (3 * 4 / 4 - 4 / 4) + (1 - 4 / 4)) % 100 + 1 ≤ 100) :=
  (random_mode_spec 4 (fun _ => 0) 100).2.1 1 1 (by decide) (by decide)
    (by decide) (by decide)

theorem sum_map_one {α : Type} (l : List α) :
    (l.map (fun _ => (1 : Int))).sum = (l.length : Int) := by
  induction l with
  | nil => simp
  | cons p l ih => simp [ih]; omega

theorem patternCoord_ofNat (dim k : Nat) : patternCoord dim (k : Int) = k + dim / 2 := by
  unfold patternCoord
  omega

/-- C7: a pattern source that cannot be opened yields no grid; the first
line of an opened source is discarded as a header, whatever it holds; the
population grows by exactly 1 per data line; and every data line (dx, dy)
with non-negative offsets whose target stays on the square grid makes the
cell at (dx + cols/2, dy + rows/2) alive. -/
theorem pattern_mode_io_spec (b : Body) (pop : Int)
    (hsq : b.cols = b.rows) (hwf : WF b) :
    pattern_mode b pop none = none ∧
    (∀ hdr₁ hdr₂ : Int × Int, ∀ data : List (Int × Int),
      pattern_mode b pop (some (hdr₁ :: data)) =
        pattern_mode b pop (some (hdr₂ :: data))) ∧
    (∀ data : List (Int × Int), (patternApply b pop data).2 = pop + data.length) ∧
    (∀ data : List (Int × Int), ∀ q ∈ data, 0 ≤ q.1 → 0 ≤ q.2 →
      patternCoord b.cols q.1 < b.cols → patternCoord b.rows q.2 < b.rows →
      cellAt (patternApply b pop data).1
        (patternCoord b.cols q.1) (patternCoord b.rows q.2) = true) := by
  refine ⟨rfl, fun hdr₁ hdr₂ data => rfl, ?_, ?_⟩
  · intro data
    show (data.foldl (writeStep
      (fun q => patternCoord b.cols q.1 * b.cols + patternCoord b.rows q.2)
      (fun _ => true)) (b.cells, pop)).2 = _
    rw [writeFold_pop]
    simp only [b2i, if_true, sum_map_one]
  · intro data q hq h01 h02 hc1 hc2
    show (data.foldl (writeStep
      (fun q => patternCoord b.cols q.1 * b.cols + patternCoord b.rows q.2)
      (fun _ => true)) (b.cells, pop)).1.getD
      (patternCoord b.cols q.1 * b.cols + patternCoord b.rows q.2) false = true
    have hj : patternCoord b.cols q.1 * b.cols + patternCoord b.rows q.2 <
        b.cells.length := by
      rw [hwf]
      exact idx_lt (le_of_eq hsq) hc1 (hsq ▸ hc2)
    exact (writeFold_true_iff _ data (b.cells, pop) _ hj).mpr
      (Or.inr ⟨q, hq, rfl⟩)

/-- Witness for the C7 theorem: a single data line (0,0) on a fresh 4x4
grid puts the cell at the grid centre (2,2). -/
theorem pattern_mode_io_spec_witness :
    cellAt (patternApply (deadBody 4 4) 0 [((0 : Int), (0 : Int))]).1
      (patternCoord (deadBody 4 4).cols 0) (patternCoord (deadBody 4 4).rows 0) = true :=
  (pattern_mode_io_spec (deadBody 4 4) 0 rfl rfl).2.2.2 [((0 : Int), (0 : Int))]
    ((0 : Int), (0 : Int)) (by decide) (by decide) (by decide) (by decide) (by decide)

/-- C3 is the claim the code breaks: a pattern file whose two data lines
repeat the coordinate (0,0) on a fresh 2x2 grid returns population 2 while
the produced grid holds exactly 1 alive cell — pattern_mode adds 1 per line
even when the target cell is already alive. -/
theorem pattern_population_overcount :
    (pattern_mode (deadBody 2 2) 0
      (some [((9 : Int), (9 : Int)), (0, 0), (0, 0)])).map
        (fun r => (r.2, (aliveCount r.1 : Int))) = some (2, 1) := by
  decide

/-- C8 fails as stated: exporting the 4x4 grid whose only alive cell is
(0,0) and importing the file back re-reads the absolute coordinates as
centre-relative offsets, so the re-imported grid is dead at (0,0). -/
theorem export_import_roundtrip_cex :
    cellAt (roundtrip ⟨4, 4, true :: List.replicate 15 false⟩).1 0 0 ≠
      cellAt ⟨4, 4, true :: List.replicate 15 false⟩ 0 0 := by
  decide

theorem roundtrip_shift_aux (n : Nat) (bcl : List Bool)
    (hquad : ∀ x, x < n → ∀ y, y < n → cellAt ⟨n, n, bcl⟩ x y = true →
      x + n / 2 < n ∧ y + n / 2 < n)
    (u v : Nat) (hu : u < n) (hv : v < n) :
    cellAt (roundtrip ⟨n, n, bcl⟩).1 u v = true ↔
      (n / 2 ≤ u ∧ n / 2 ≤ v ∧
        cellAt ⟨n, n, bcl⟩ (u - n / 2) (v - n / 2) = true) := by
  show ((((export_body ⟨n, n, bcl⟩).map (fun p => ((p.1 : Int), (p.2 : Int)))).foldl
    (writeStep (fun q => patternCoord n q.1 * n + patternCoord n q.2) (fun _ => true))
    (List.replicate (n * n) false, 0)).1.getD (u * n + v) false = true) ↔ _
  rw [writeFold_true_iff _ _ _ _
    (by simp only [List.length_replicate]; exact idx_lt (le_refl n) hu hv)]
  constructor
  · rintro (hinit | ⟨q, hq, hι⟩)
    · rw [show (List.replicate (n * n) false, (0 : Int)).1.getD (u * n + v) false = false
        by rw [getD_replicate]; split <;> rfl] at hinit
      exact absurd hinit (by simp)
    · rcases List.mem_map.mp hq with ⟨p, hp, hpq⟩
      rcases List.mem_filter.mp hp with ⟨hpos, halive⟩
      have hb := mem_positions.mp hpos
      have hquadp := hquad p.1 (by simpa using hb.1) p.2 (by simpa using hb.2)
        (by simpa using halive)
      rw [← hpq] at hι
      simp only at hι
      rw [patternCoord_ofNat, patternCoord_ofNat] at hι
      obtain ⟨he1, he2⟩ := pair_idx_inj (by omega) hv hι
      refine ⟨by omega, by omega, ?_⟩
      rw [show u - n / 2 = p.1 by omega, show v - n / 2 = p.2 by omega]
      simpa using halive
  · rintro ⟨hu2, hv2, halive⟩
    refine Or.inr ⟨(((u - n / 2 : Nat) : Int), ((v - n / 2 : Nat) : Int)), ?_, ?_⟩
    · apply List.mem_map.mpr
      refine ⟨(u - n / 2, v - n / 2), ?_, rfl⟩
      apply List.mem_filter.mpr
      refine ⟨mem_positions.mpr ⟨?_, ?_⟩, ?_⟩
      · simpa using Nat.lt_of_le_of_lt (Nat.sub_le u (n / 2)) hu
      · simpa using Nat.lt_of_le_of_lt (Nat.sub_le v (n / 2)) hv
      · simpa using halive
    · simp only
      rw [patternCoord_ofNat, patternCoord_ofNat]
      have h1 : u - n / 2 + n / 2 = u := by omega
      rw [h1, show v - n / 2 + n / 2 = v by omega]

/-- C8 amended: on a square grid whose alive cells keep their centre-shifted
images on the grid, export followed by pattern import reproduces the alive
set translated by the centre (cols/2, rows/2): the re-imported grid is alive
at (u, v) exactly when the original is alive at (u - cols/2, v - rows/2). -/
theorem export_import_roundtrip_shift (b : Body) (n : Nat)
    (hr : b.rows = n) (hc : b.cols = n)
    (hquad : ∀ x, x < n → ∀ y, y < n → cellAt b x y = true →
      x + n / 2 < n ∧ y + n / 2 < n)
    (u v : Nat) (hu : u < n) (hv : v < n) :
    cellAt (roundtrip b).1 u v = true ↔
      (n / 2 ≤ u ∧ n / 2 ≤ v ∧ cellAt b (u - n / 2) (v - n / 2) = true) := by
  have hb : b = ⟨n, n, b.cells⟩ := by
    obtain ⟨br, bc, bcl⟩ := b
    simp only at hr hc ⊢
    rw [hr, hc]
  have hquad' : ∀ x, x < n → ∀ y, y < n → cellAt ⟨n, n, b.cells⟩ x y = true →
      x + n / 2 < n ∧ y + n / 2 < n := by
    rw [← hb]
    exact hquad
  rw [hb]
  exact roundtrip_shift_aux n b.cells hquad' u v hu hv

/-- Witness for the amended C8 theorem: the 4x4 grid alive only at (0,0)
maps to a grid alive exactly at (2,2), checked at position (2,2). -/
theorem export_import_roundtrip_shift_witness :
    cellAt (roundtrip ⟨4, 4, true :: List.replicate 15 false⟩).1 2 2 = true ↔
      (4 / 2 ≤ 2 ∧ 4 / 2 ≤ 2 ∧
        cellAt ⟨4, 4, true :: List.replicate 15 false⟩ (2 - 4 / 2) (2 - 4 / 2) = true) :=
  export_import_roundtrip_shift ⟨4, 4, true :: List.replicate 15 false⟩ 4 rfl rfl
    (by decide) 2 2 (by decide) (by decide)

end GoL
